import Mathlib

/-!
Verification development for the oasis-core storage pipeline: a shallow
embedding of the Badger-backed MKVS node database
(`go/storage/mkvs/db/badger`, present in the source snapshot) and of the
storage worker's sync-cursor handling (`go/worker/storage/committee/node.go`),
together with theorems settling the frozen claims about finalization,
pruning, write-log reconstruction, root lookup, read-only mode, batch
commit, and sync-cursor monotonicity.

Maps that the Go code keeps in Badger (nodes, write logs, roots metadata,
updated-node indices) are embedded as association lists; Go `map` iteration
order is irrelevant to every modelled operation because the computed results
are unions / filters, so a deterministic list order is faithful.
-/

deriving instance DecidableEq for Except

namespace Oasis

/-- 32-byte cryptographic hashes are abstracted as naturals; `0` plays the
role of the distinguished empty hash (`hash.Hash.IsEmpty` in Go). -/
abbrev NodeHash := Nat

/-- The empty hash (`IsEmpty` in the Go code returns true exactly here). -/
def emptyHash : NodeHash := 0

/-- Root type tag (`node.RootType` in the Go code: invalid / state / I/O). -/
inductive RootType where
  | invalid
  | stateRoot
  | ioRoot
deriving DecidableEq, Repr

/-- `typedHash`: a root-type tag together with a hash.  Node, write-log and
roots-metadata keys in the node database are all typed hashes. -/
structure TypedHash where
  ty : RootType
  h : NodeHash
deriving DecidableEq, Repr

/-- `node.Root`: (namespace, version, root type, hash).  Namespaces are
abstracted as naturals. -/
structure Root where
  ns : Nat
  version : Nat
  ty : RootType
  h : NodeHash
deriving DecidableEq, Repr

instance : Inhabited Root := ⟨{ ns := 0, version := 0, ty := .invalid, h := 0 }⟩

/-- `typedHashFromRoot` from the Go code. -/
def typedHashFromRoot (r : Root) : TypedHash := ⟨r.ty, r.h⟩

/-- Modelled from the spec: `node.Root.Follows` is not part of the source
snapshot (only its callers are).  Per the spec's batch contract, a new root
follows an old root iff the namespaces match and the new root's version is
at least the old root's version. -/
def Root.follows (newRoot oldRoot : Root) : Bool :=
  newRoot.ns == oldRoot.ns && oldRoot.version ≤ newRoot.version

/-! ## Association-list helpers (the embedding of the Badger key families) -/

/-- Lookup in an association list. -/
def lookupA {K V : Type} [DecidableEq K] : List (K × V) → K → Option V
  | [], _ => none
  | (k, v) :: rest, key => if k = key then some v else lookupA rest key

/-- Insert or replace a binding in an association list. -/
def insertA {K V : Type} [DecidableEq K] : List (K × V) → K → V → List (K × V)
  | [], key, v => [(key, v)]
  | (k, w) :: rest, key, v =>
      if k = key then (key, v) :: rest else (k, w) :: insertA rest key v

/-- Remove a binding from an association list. -/
def eraseA {K V : Type} [DecidableEq K] : List (K × V) → K → List (K × V)
  | [], _ => []
  | (k, w) :: rest, key => if k = key then eraseA rest key else (k, w) :: eraseA rest key

/-! ## Node database state -/

/-- Modelled from the spec: the global-metadata record (`metadata` /
`metadataValue` in the database package is not part of the source snapshot;
its accessors `getEarliestVersion`, `getLastFinalizedVersion`,
`getMultipartVersion` and the corresponding setters are called throughout
the snapshot).  Per the spec it holds earliest-version, an optional
last-finalized-version, and the in-progress multipart version (0 = none). -/
structure Metadata where
  earliestVersion : Nat
  lastFinalized : Option Nat
  multipartVersion : Nat
deriving DecidableEq, Repr

/-- An entry of the per-root updated-nodes list (`updatedNode` in Go). -/
structure UpdatedNode where
  removed : Bool
  h : TypedHash
deriving DecidableEq, Repr

/-- The decoded content of a persisted node, reduced to what the node
database operations inspect: the version at which the node was created
(`GetCreatedVersion`) and the hashes of its children (for an internal node:
the optional leaf pointer and the two child pointers; for a leaf: none). -/
structure NodeData where
  createdVersion : Nat
  children : List NodeHash
deriving DecidableEq, Repr

/-- A write-log key `(version, new root, old root)` (`writeLogKeyFmt`).
The claims only inspect which write-log records exist, never their CBOR
payloads, so the store keeps the keys. -/
structure WLKey where
  version : Nat
  newRoot : TypedHash
  oldRoot : TypedHash
deriving DecidableEq, Repr

/-- The state of a `badgerNodeDB`: configuration flags, the in-memory
`multipartVersion` field, the global metadata record, and the five Badger
key families (nodes, write logs, roots metadata, updated-node indices,
multipart-restore log). -/
structure NDB where
  ns : Nat
  readOnly : Bool
  discardWriteLogs : Bool
  multipartVersion : Nat
  meta : Metadata
  nodes : List (TypedHash × NodeData)
  writeLogs : List WLKey
  rootsMetadata : List (Nat × List (TypedHash × List TypedHash))
  updatedNodes : List ((Nat × TypedHash) × List UpdatedNode)
  multipartLog : List TypedHash
deriving DecidableEq, Repr

/-- The error values surfaced by the node database operations
(`go/storage/mkvs/db/api` error variables, plus the two `fmt.Errorf`
failures inside `Finalize` and the corrupt-index panic). -/
inductive DBErr where
  | readOnly
  | needRoots
  | invalidMultipartVersion
  | notFinalized
  | alreadyFinalized
  | rootsVersionMismatch
  | corruptUpdatedNodes
  | multipartInProgress
  | notEarliest
  | writeLogNotFound
  | rootMustFollowOld
  | badNamespace
  | rootNotFound
  | previousVersionMismatch
  | nodeNotFound
deriving DecidableEq, Repr

/-- Modelled from the spec: `loadRootsMetadata` (not part of the source
snapshot, called throughout it) returns the version's roots-metadata record
— the map root-hash → list of derived root-hashes — creating an empty one
when the version has no record yet. -/
def loadRootsMetadata (d : NDB) (version : Nat) : List (TypedHash × List TypedHash) :=
  (lookupA d.rootsMetadata version).getD []

/-- `badgerNodeDB.sanityCheckNamespace`. -/
def sanityCheckNamespace (d : NDB) (ns : Nat) : Bool := ns == d.ns

/-! ## HasRoot -/

/-- `badgerNodeDB.HasRoot`: false on a namespace mismatch; true for the
empty hash; false below the earliest version; otherwise membership in the
version's roots metadata. -/
def HasRoot (d : NDB) (root : Root) : Bool :=
  if !sanityCheckNamespace d root.ns then false
  else if root.h == emptyHash then true
  else if root.version < d.meta.earliestVersion then false
  else (lookupA (loadRootsMetadata d root.version) (typedHashFromRoot root)).isSome

/-! ## GetWriteLog -/

/-- All persisted write-log records with the given version whose new root is
`endH` — the records the BFS in `GetWriteLog` scans for one queue item
(the `writeLogKeyFmt.Encode(endRoot.Version, &curItem.endRootHash)` prefix
iteration). -/
def wlRecordsFor (d : NDB) (version : Nat) (endH : TypedHash) : List WLKey :=
  d.writeLogs.filter (fun k => k.version == version && k.newRoot == endH)

/-- The BFS of `badgerNodeDB.GetWriteLog` unrolled.  The Go loop starts from
a depth-0 item for the end root and only enqueues items whose depth is
strictly below `maxAllowedHops = 2`, so exactly the one- and two-hop paths
are explored: a record end→start, or a pair of records end→mid and
mid→start, all at the end root's version. -/
def wlPathWithin2 (d : NDB) (version : Nat) (startH endH : TypedHash) : Bool :=
  let hop1 := wlRecordsFor d version endH
  hop1.any (fun k => k.oldRoot == startH) ||
    hop1.any (fun k1 =>
      (wlRecordsFor d version k1.oldRoot).any (fun k2 => k2.oldRoot == startH))

/-- `badgerNodeDB.GetWriteLog`, reduced to its result discriminant: which
error it returns, or success when a path of at most two hops exists.  The
write-log payload streaming is not modelled (no claim inspects it). -/
def GetWriteLog (d : NDB) (startRoot endRoot : Root) : Except DBErr Unit :=
  if d.discardWriteLogs then .error .writeLogNotFound
  else if !Root.follows endRoot startRoot then .error .rootMustFollowOld
  else if !sanityCheckNamespace d startRoot.ns then .error .badNamespace
  else if endRoot.version < d.meta.earliestVersion then .error .writeLogNotFound
  else if wlPathWithin2 d endRoot.version (typedHashFromRoot startRoot)
      (typedHashFromRoot endRoot) then .ok ()
  else .error .writeLogNotFound

/-! ## Finalize -/

/-- One pass of the transitive-closure loop in `badgerNodeDB.Finalize`:
a root becomes finalized when one of its derived roots already is. -/
def closureStep (rootsMeta : List (TypedHash × List TypedHash))
    (fin : List TypedHash) : List TypedHash :=
  rootsMeta.foldl
    (fun acc entry =>
      if !acc.contains entry.1 && entry.2.any (fun nxt => acc.contains nxt) then
        entry.1 :: acc
      else acc)
    fin

/-- The `for updated := true; updated;` fixpoint loop of `Finalize`.  Each
productive pass adds at least one root, so `rootsMeta.length + 1` passes
reach the fixpoint; the loop stops early when a pass adds nothing, exactly
as the Go loop stops when `updated` stays false. -/
def closureLoop (rootsMeta : List (TypedHash × List TypedHash)) :
    Nat → List TypedHash → List TypedHash
  | 0, fin => fin
  | fuel + 1, fin =>
      let next := closureStep rootsMeta fin
      if next.length = fin.length then fin else closureLoop rootsMeta fuel next

/-- The per-root pass of `Finalize` over the version's roots metadata,
accumulating (maybe-lone nodes, not-lone nodes, retained metadata entries,
write-log keys to delete).  A finalized root keeps its metadata entry and
contributes its removals to maybe-lone and its inserts to not-lone; a
non-finalized root is dropped from the metadata, contributes its inserts to
maybe-lone, and has its write logs deleted (unless write logs are discarded
globally). -/
def finalizePass (d : NDB) (version : Nat)
    (rootsMeta : List (TypedHash × List TypedHash)) (fin : List TypedHash) :
    List TypedHash × List TypedHash × List (TypedHash × List TypedHash) × List WLKey :=
  rootsMeta.foldl
    (fun acc entry =>
      let (maybeLone, notLone, kept, wlDel) := acc
      let ups := (lookupA d.updatedNodes (version, entry.1)).getD []
      if fin.contains entry.1 then
        (maybeLone ++ (ups.filter (fun u => u.removed)).map (fun u => u.h),
         notLone ++ (ups.filter (fun u => !u.removed)).map (fun u => u.h),
         kept ++ [entry], wlDel)
      else
        (maybeLone ++ (ups.filter (fun u => !u.removed)).map (fun u => u.h),
         notLone, kept,
         wlDel ++ (if d.discardWriteLogs then []
                   else d.writeLogs.filter
                     (fun k => k.version == version && k.newRoot == entry.1))))
    ([], [], [], [])

/-- Modelled from the spec: `metadata.setLastFinalizedVersion` (not part of
the source snapshot) records the new last-finalized version and, on the very
first finalization, also initializes earliest-version to it, which is what
keeps the spec's invariant `earliest-version ≤ last-finalized-version` true
from the first finalized version on. -/
def setLastFinalizedVersion (m : Metadata) (version : Nat) : Metadata :=
  { m with
    lastFinalized := some version
    earliestVersion := if m.lastFinalized.isSome then m.earliestVersion else version }

/-- The version `cleanMultipartLocked` works with: the in-memory field when
set, otherwise the one recorded in the metadata. -/
def cleanMultipartVersionOf (d : NDB) : Nat :=
  if d.multipartVersion ≠ 0 then d.multipartVersion else d.meta.multipartVersion

/-- `badgerNodeDB.cleanMultipartLocked`: when a multipart restore is
recorded, delete the multipart log (and, when `removeNodes` is set, every
node the log references) and clear the multipart marker; a no-op when no
restore is in progress. -/
def cleanMultipart (d : NDB) (removeNodes : Bool) : NDB :=
  if cleanMultipartVersionOf d = 0 then d
  else
    { d with
      nodes := if removeNodes then
                 d.nodes.filter (fun e => !d.multipartLog.contains e.1)
               else d.nodes
      multipartLog := []
      meta := { d.meta with multipartVersion := 0 }
      multipartVersion := 0 }

/-- The state transformation performed by a successful `Finalize` of
`roots` at `version`: the transitive closure of finalized roots, the
lone-node sweep, write-log deletion for dropped roots, removal of the
version's updated-node indices, the last-finalized update, and the
multipart cleanup. -/
def finalizeApply (d : NDB) (roots : List Root) (version : Nat) : NDB :=
  let rootsMeta := loadRootsMetadata d version
  let pass := finalizePass d version rootsMeta
    (closureLoop rootsMeta (rootsMeta.length + 1) (roots.map typedHashFromRoot))
  let deadNodes := pass.1.filter (fun h => !pass.2.1.contains h)
  let d1 : NDB :=
    { d with
      nodes := d.nodes.filter (fun e => !deadNodes.contains e.1)
      writeLogs := d.writeLogs.filter (fun k => !pass.2.2.2.contains k)
      rootsMetadata :=
        if pass.2.2.1.length = rootsMeta.length then d.rootsMetadata
        else insertA d.rootsMetadata version pass.2.2.1
      updatedNodes := d.updatedNodes.filter
        (fun e => !rootsMeta.any (fun entry => e.1 = (version, entry.1)))
      meta := setLastFinalizedVersion d.meta version }
  if d.multipartVersion ≠ 0 then cleanMultipart d1 false else d1

/-- `badgerNodeDB.Finalize`.  Mirrors the Go control flow: read-only check;
non-empty roots check; multipart-version check; not-finalized check (skipped
while a multipart restore is in progress); already-finalized check; matching
root versions check; then `finalizeApply`.  Every error return in the Go
function happens before its write batch is flushed and its transaction
committed, so an error leaves the state unchanged (see `FinalizeRun`).  The
Go code panics on a missing updated-nodes index; that is surfaced as
`corruptUpdatedNodes`. -/
def Finalize (d : NDB) (roots : List Root) : Except DBErr NDB :=
  if d.readOnly then .error .readOnly
  else if roots.isEmpty then .error .needRoots
  else if d.multipartVersion ≠ 0 ∧ d.multipartVersion ≠ roots.headI.version then
    .error .invalidMultipartVersion
  else if d.multipartVersion = 0 ∧ 0 < roots.headI.version ∧
      d.meta.lastFinalized.isSome ∧
      (d.meta.lastFinalized.getD 0) < roots.headI.version - 1 then
    .error .notFinalized
  else if d.meta.lastFinalized.isSome ∧
      roots.headI.version ≤ d.meta.lastFinalized.getD 0 then
    .error .alreadyFinalized
  else if roots.any (fun r => r.version ≠ roots.headI.version) then
    .error .rootsVersionMismatch
  else if (loadRootsMetadata d roots.headI.version).any
      (fun e => (lookupA d.updatedNodes (roots.headI.version, e.1)).isNone) then
    .error .corruptUpdatedNodes
  else
    .ok (finalizeApply d roots roots.headI.version)

/-- The Go calling convention made explicit: `Finalize` mutates the database
on success and leaves it untouched when it returns an error (every error
path in the Go function precedes the batch flush and metadata commit). -/
def FinalizeRun (d : NDB) (roots : List Root) : NDB × Option DBErr :=
  match Finalize d roots with
  | .ok d2 => (d2, none)
  | .error e => (d, some e)

/-! ## Prune -/

/-- Modelled from the spec: `api.Visit` (not part of the source snapshot) is
the breadth-first traversal `Prune` uses to "visit each lone root".  It
starts from the root's hash, reads each node from the store under the root's
type tag, and enqueues its children; a hash with no persisted node is simply
not descended into.  `fuel` bounds the recursion; `pruneVisit` is always
called with enough fuel to exhaust the queue (see `visitFuel`). -/
def pruneVisit (nodes : List (TypedHash × NodeData)) (t : RootType) :
    Nat → List NodeHash → List NodeHash → List NodeHash
  | 0, _, visited => visited
  | _ + 1, [], visited => visited
  | fuel + 1, h :: queue, visited =>
      if visited.contains h then pruneVisit nodes t fuel queue visited
      else
        match lookupA nodes ⟨t, h⟩ with
        | none => pruneVisit nodes t fuel queue visited
        | some nd => pruneVisit nodes t fuel (queue ++ nd.children) (h :: visited)

/-- Fuel that always suffices for `pruneVisit`: one unit per queue element
ever processed (the initial element plus at most every child list in the
store, plus one skip per store entry). -/
def visitFuel (nodes : List (TypedHash × NodeData)) : Nat :=
  2 + nodes.length + nodes.foldl (fun acc e => acc + e.2.children.length) 0 +
    nodes.length * nodes.foldl (fun acc e => acc + e.2.children.length) 0

/-- The set (as a list of typed hashes) of nodes `Prune` visits from one
lone root: every node reachable from the root's hash under the root's type. -/
def visitedFrom (d : NDB) (rh : TypedHash) : List TypedHash :=
  (pruneVisit d.nodes rh.ty (visitFuel d.nodes) [rh.h] []).map
    (fun h => (⟨rh.ty, h⟩ : TypedHash))

/-- The lone roots of a version: the entries of its roots metadata with no
derived roots (the `maybeLoneRoots` computation of `Prune` — for the unique
keys of a map the flag dance there reduces to `len(derivedRoots) == 0`). -/
def loneRoots (rootsMeta : List (TypedHash × List TypedHash)) : List TypedHash :=
  (rootsMeta.filter (fun e => e.2.isEmpty)).map (fun e => e.1)

/-- The node keys `Prune` deletes: for each lone root, every visited node
whose created version equals the pruned version. -/
def pruneDeadNodes (d : NDB) (version : Nat) (lone : List TypedHash) : List TypedHash :=
  lone.foldl
    (fun acc rh =>
      acc ++ (visitedFrom d rh).filter
        (fun th =>
          match lookupA d.nodes th with
          | some nd => nd.createdVersion == version
          | none => false))
    []

/-- `badgerNodeDB.Prune`.  Mirrors the Go control flow: read-only check;
multipart-in-progress check; not-finalized check (`!exists ||
lastFinalizedVersion < version`); not-earliest check; then the lone-root
visit that deletes nodes created at this version, deletion of the version's
roots metadata and write logs, and the earliest-version bump.  All deletes
are staged in a write batch flushed after the visits, so the visits read the
unmodified store. -/
def Prune (d : NDB) (version : Nat) : Except DBErr NDB :=
  if d.readOnly then .error .readOnly
  else if d.multipartVersion ≠ 0 then .error .multipartInProgress
  else if !d.meta.lastFinalized.isSome ∨ d.meta.lastFinalized.getD 0 < version then
    .error .notFinalized
  else if version ≠ d.meta.earliestVersion then .error .notEarliest
  else
    let rootsMeta := loadRootsMetadata d version
    let dead := pruneDeadNodes d version (loneRoots rootsMeta)
    .ok
      { d with
        nodes := d.nodes.filter (fun e => !dead.contains e.1)
        rootsMetadata := eraseA d.rootsMetadata version
        writeLogs := if d.discardWriteLogs then d.writeLogs
                     else d.writeLogs.filter (fun k => k.version ≠ version)
        meta := { d.meta with earliestVersion := version + 1 } }

/-- The Go calling convention made explicit for `Prune`: errors leave the
database untouched (every error path precedes the batch flush and commit). -/
def PruneRun (d : NDB) (version : Nat) : NDB × Option DBErr :=
  match Prune d version with
  | .ok d2 => (d2, none)
  | .error e => (d, some e)

/-! ## Multipart operations and batches -/

/-- `badgerNodeDB.StartMultipartInsert`.  Note: the Go function performs no
read-only check — on a read-only backing store the metadata commit would
surface a backend error, never `ErrReadOnly`. -/
def StartMultipartInsert (d : NDB) (version : Nat) : Except DBErr NDB :=
  if version = 0 then .error .invalidMultipartVersion
  else if d.multipartVersion ≠ 0 then
    if d.multipartVersion ≠ version then .error .multipartInProgress
    else .ok d
  else
    .ok { d with
          multipartVersion := version
          meta := { d.meta with multipartVersion := version } }

/-- `badgerNodeDB.AbortMultipartInsert`: `cleanMultipartLocked(true)` under
the metadata lock.  No read-only check; with no restore in progress it
returns success without touching the store. -/
def AbortMultipartInsert (d : NDB) : Except DBErr NDB :=
  .ok (cleanMultipart d true)

/-- The staging state of a `badgerBatch`: the pending old root, the chunk
flag, the staged node writes, the updated-nodes list, whether a write log
was attached (`PutWriteLog` stores it only when write logs are not
discarded), and the staged multipart-log entries. -/
structure Batch where
  oldRoot : Root
  chunk : Bool
  stagedNodes : List (TypedHash × NodeData)
  updatedNodes : List UpdatedNode
  hasWriteLog : Bool
  multipartStaged : List TypedHash
deriving DecidableEq, Repr

/-- `badgerNodeDB.NewBatch`: read-only check, multipart-version check, and
the requirement that the chunk flag agree with the multipart state. -/
def NewBatch (d : NDB) (oldRoot : Root) (version : Nat) (chunk : Bool) :
    Except DBErr Batch :=
  if d.readOnly then .error .readOnly
  else if d.multipartVersion ≠ 0 ∧ d.multipartVersion ≠ version then
    .error .invalidMultipartVersion
  else if chunk ≠ (d.multipartVersion ≠ 0) then .error .multipartInProgress
  else .ok { oldRoot := oldRoot, chunk := chunk, stagedNodes := [],
             updatedNodes := [], hasWriteLog := false, multipartStaged := [] }

/-- `badgerBatch.PutWriteLog`: rejected in chunk mode; dropped silently when
write logs are discarded; otherwise staged for commit. -/
def Batch.putWriteLog (d : NDB) (ba : Batch) : Except DBErr Batch :=
  if ba.chunk then .error .multipartInProgress
  else if d.discardWriteLogs then .ok ba
  else .ok { ba with hasWriteLog := true }

/-- `badgerSubtree.PutNode`: stage the node under the old root's type, add
it to the updated-nodes list, and, during a multipart restore, log it when
it is not yet persisted. -/
def Batch.putNode (d : NDB) (ba : Batch) (h : NodeHash) (nd : NodeData) : Batch :=
  let th : TypedHash := ⟨ba.oldRoot.ty, h⟩
  { ba with
    stagedNodes := insertA ba.stagedNodes th nd
    updatedNodes := ba.updatedNodes ++ [{ removed := false, h := th }]
    multipartStaged :=
      if d.multipartVersion ≠ 0 ∧ (lookupA d.nodes th).isNone then
        ba.multipartStaged ++ [th]
      else ba.multipartStaged }

/-- `badgerBatch.Commit`.  Mirrors the Go control flow: multipart-version,
namespace, follows and already-finalized checks; then the duplicate-root
fast path (a non-chunk commit of an already-registered root resets the batch
and succeeds without writing); otherwise registration of the new root, the
chunk or non-chunk metadata bookkeeping, and the flush of staged nodes and
multipart-log entries. -/
def Commit (d : NDB) (ba : Batch) (root : Root) : Except DBErr NDB :=
  if d.multipartVersion ≠ 0 ∧ d.multipartVersion ≠ root.version then
    .error .invalidMultipartVersion
  else if !sanityCheckNamespace d root.ns then .error .badNamespace
  else if !Root.follows root ba.oldRoot then .error .rootMustFollowOld
  else if d.meta.lastFinalized.isSome ∧ root.version ≤ d.meta.lastFinalized.getD 0 then
    .error .alreadyFinalized
  else
    let rootsMeta := loadRootsMetadata d root.version
    let rootHash := typedHashFromRoot root
    if (lookupA rootsMeta rootHash).isSome ∧ !ba.chunk then
      -- Root already registered: everything it denotes is already persisted;
      -- the batch is reset and the commit succeeds without writing.
      .ok d
    else
      let rootsMeta1 :=
        if (lookupA rootsMeta rootHash).isSome then rootsMeta
        else insertA rootsMeta rootHash []
      let flushNodes (db : NDB) : NDB :=
        { db with
          nodes := ba.stagedNodes.foldl (fun ns e => insertA ns e.1 e.2) db.nodes
          multipartLog :=
            if d.multipartVersion ≠ 0 then db.multipartLog ++ ba.multipartStaged
            else db.multipartLog }
      if ba.chunk then
        .ok (flushNodes
          { d with
            rootsMetadata := insertA d.rootsMetadata root.version rootsMeta1
            updatedNodes := insertA d.updatedNodes (root.version, rootHash) [] })
      else
        let oldRootHash := typedHashFromRoot ba.oldRoot
        if ba.oldRoot.h ≠ emptyHash then
          if ba.oldRoot.version < d.meta.earliestVersion ∧
              ba.oldRoot.version ≠ root.version then
            .error .previousVersionMismatch
          else
            let oldRootsMeta :=
              if ba.oldRoot.version = root.version then rootsMeta1
              else loadRootsMetadata d ba.oldRoot.version
            match lookupA oldRootsMeta oldRootHash with
            | none => .error .rootNotFound
            | some derived =>
              let oldRootsMeta1 := insertA oldRootsMeta oldRootHash (derived ++ [rootHash])
              let rmAll :=
                if ba.oldRoot.version = root.version then
                  insertA d.rootsMetadata root.version oldRootsMeta1
                else
                  insertA (insertA d.rootsMetadata root.version rootsMeta1)
                    ba.oldRoot.version oldRootsMeta1
              .ok (flushNodes
                { d with
                  rootsMetadata := rmAll
                  updatedNodes := insertA d.updatedNodes (root.version, rootHash)
                    ba.updatedNodes
                  writeLogs :=
                    if ba.hasWriteLog then
                      d.writeLogs ++ [{ version := root.version, newRoot := rootHash,
                                        oldRoot := oldRootHash }]
                    else d.writeLogs })
        else
          .ok (flushNodes
            { d with
              rootsMetadata := insertA d.rootsMetadata root.version rootsMeta1
              updatedNodes := insertA d.updatedNodes (root.version, rootHash)
                ba.updatedNodes
              writeLogs :=
                if ba.hasWriteLog then
                  d.writeLogs ++ [{ version := root.version, newRoot := rootHash,
                                    oldRoot := oldRootHash }]
                else d.writeLogs })

/-! ## Worker sync-cursor model (storage committee node)

The storage worker's main loop (`Node.worker` in
`go/worker/storage/committee/node.go`) is embedded as a transition system
over the state the loop threads through its iterations, restricted to the
pieces the sync cursor depends on: `cachedLastRound`,
`lastFullyAppliedRound`, the `outOfOrderApplieds` heap, the in-flight
finalization, and the sequence of rounds written to the persisted watcher
state by `flushSyncedState`.  The apply pipeline (diff fetching, the
`outOfOrderDiffs` heap and the per-round masks) is abstracted into the
single event "the next round became fully applied", which in the Go code is
the only place that pushes a summary onto `outOfOrderApplieds` and always
pushes round `lastFullyAppliedRound + 1`. -/

namespace Worker

/-- Rounds are uint64 values. -/
def W : Nat := 2 ^ 64

/-- `defaultUndefinedRound = ^uint64(0)`: the sentinel for "no block synced
yet". -/
def defaultUndefinedRound : Nat := W - 1

/-- The loop state: the round of the last flushed (persisted) cursor
(`cachedLastRound`), the last fully applied round, the rounds sitting in the
`outOfOrderApplieds` min-heap (kept as a sorted list), the round of the
finalization currently in flight (the Go loop spawns at most one, which the
invariants below re-establish), and the program-order sequence of rounds
written to the persisted sync cursor. -/
structure WState where
  cached : Nat
  lastApplied : Nat
  applieds : List Nat
  inFlight : List Nat
  persisted : List Nat
deriving DecidableEq, Repr

/-- `n.undefinedRound = genesisBlock.Header.Round - 1` in uint64
arithmetic. -/
def undefinedRound (genesisRound : Nat) : Nat := (genesisRound + W - 1) % W

/-- The initialization of `cachedLastRound` in `Node.worker`: the persisted
round if one exists, demoted to the undefined round when it is the sentinel
or predates the genesis block (`stored = none` stands for a fresh state
store, whose in-memory default is the sentinel). -/
def initCached (stored : Option Nat) (genesisRound : Nat) : Nat :=
  match stored with
  | none => undefinedRound genesisRound
  | some r =>
      if r = defaultUndefinedRound ∨ r < genesisRound then undefinedRound genesisRound
      else r

/-- The state on entering the main loop: `lastFullyAppliedRound :=
cachedLastRound`, then, when checkpoint sync succeeded with a summary at
round `c`, `cachedLastRound = flushSyncedState(summary)` and
`lastFullyAppliedRound = cachedLastRound` (the cursor's first persisted
observation of the run). -/
def initState (stored : Option Nat) (genesisRound : Nat) (ckpt : Option Nat) : WState :=
  match ckpt with
  | none =>
      { cached := initCached stored genesisRound
        lastApplied := initCached stored genesisRound
        applieds := [], inFlight := [], persisted := [] }
  | some c =>
      { cached := c, lastApplied := c, applieds := [], inFlight := [], persisted := [c] }

/-- Insert into the sorted list that models the `outOfOrderApplieds`
min-heap (the head is the minimum, as `(*outOfOrderApplieds)[0]`). -/
def insertSorted (r : Nat) : List Nat → List Nat
  | [] => [r]
  | x :: xs => if r ≤ x then r :: x :: xs else x :: insertSorted r xs

/-- One pass of the drain step at the top of the main loop: when the
smallest fully-applied summary is for round `cachedLastRound + 1`, pop it
and dispatch its finalization (the `go n.finalize(lastSummary)` call). -/
def dispatch (s : WState) : WState :=
  match s.applieds with
  | [] => s
  | h :: rest =>
      if h = (s.cached + 1) % W then
        { s with applieds := rest, inFlight := s.inFlight ++ [h] }
      else s

/-- The loop re-runs the drain after every event (`continue`); fueled by the
heap size, which only shrinks. -/
def drain : Nat → WState → WState
  | 0, s => s
  | fuel + 1, s => if dispatch s = s then s else drain fuel (dispatch s)

def drainAll (s : WState) : WState := drain s.applieds.length s

/-- The two events of the abstracted loop: round `lastFullyAppliedRound + 1`
became fully applied (its summary is pushed onto `outOfOrderApplieds` and
`lastFullyAppliedRound` advances — the only way the Go loop pushes onto that
heap), and a finalization completed (`finalizeCh` delivered its summary,
which is flushed to the persisted cursor and becomes `cachedLastRound`). -/
inductive WEvent where
  | applied
  | finalizeDone
deriving DecidableEq, Repr

/-- Round `lastFullyAppliedRound + 1` became fully applied: its summary is
pushed onto the heap and `lastFullyAppliedRound` advances (uint64
arithmetic). -/
def stepApplied (s : WState) : WState :=
  drainAll
    { s with
      lastApplied := (s.lastApplied + 1) % W
      applieds := insertSorted ((s.lastApplied + 1) % W) s.applieds }

/-- A finalization completed: its summary round is flushed to the persisted
cursor and becomes `cachedLastRound`. -/
def stepFinalize (s : WState) : WState :=
  match s.inFlight with
  | [] => s
  | r :: rest =>
      drainAll { s with inFlight := rest, cached := r, persisted := s.persisted ++ [r] }

def step (s : WState) : WEvent → WState
  | .applied => stepApplied s
  | .finalizeDone => stepFinalize s

def run (stored : Option Nat) (genesisRound : Nat) (ckpt : Option Nat)
    (events : List WEvent) : WState :=
  events.foldl step (drainAll (initState stored genesisRound ckpt))

end Worker

/-! ## Claim C4: HasRoot characterization -/

/-- C4: for every root carrying the database's namespace, `HasRoot` returns
true iff the root's hash is the empty hash, or the root's version is at
least earliest-version and the root appears in that version's root
metadata. -/
theorem C4_has_root_characterization (d : NDB) (root : Root) (hns : root.ns = d.ns) :
    HasRoot d root = true ↔
      root.h = emptyHash ∨
        (d.meta.earliestVersion ≤ root.version ∧
          (lookupA (loadRootsMetadata d root.version) (typedHashFromRoot root)).isSome = true) := by
  have h1 : sanityCheckNamespace d root.ns = true := by
    simp [sanityCheckNamespace, hns]
  unfold HasRoot
  rw [h1]
  by_cases he : root.h = emptyHash
  · simp [he]
  · have he2 : (root.h == emptyHash) = false := by
      simp [he]
    rw [he2]
    by_cases hv : root.version < d.meta.earliestVersion
    · simp only [Bool.not_true, Bool.false_eq_true, if_false, if_pos hv]
      constructor
      · intro h
        exact absurd h (by simp)
      · rintro (h | ⟨h, _⟩)
        · exact absurd h he
        · omega
    · simp only [Bool.not_true, Bool.false_eq_true, if_false, if_neg hv]
      constructor
      · intro h
        exact Or.inr ⟨by omega, h⟩
      · rintro (h | ⟨_, h⟩)
        · exact absurd h he
        · exact h

/-- A database with one finalized version and one registered state root,
used to witness C4. -/
def c4DB : NDB :=
  { ns := 7, readOnly := false, discardWriteLogs := false, multipartVersion := 0
    meta := { earliestVersion := 2, lastFinalized := some 3, multipartVersion := 0 }
    nodes := [], writeLogs := []
    rootsMetadata := [(3, [(⟨.stateRoot, 9⟩, [])])]
    updatedNodes := [], multipartLog := [] }

def c4Root : Root := { ns := 7, version := 3, ty := .stateRoot, h := 9 }

/-- Witness for C4 at a concrete database and root. -/
theorem C4_has_root_witness : HasRoot c4DB c4Root = true :=
  (C4_has_root_characterization c4DB c4Root rfl).mpr
    (Or.inr ⟨by decide, by decide⟩)

/-! ## Claim C3: write-log reconstruction hop cap -/

/-- An empty writable database used for the C3 counterexample. -/
def wlDB : NDB :=
  { ns := 0, readOnly := false, discardWriteLogs := false, multipartVersion := 0
    meta := { earliestVersion := 0, lastFinalized := none, multipartVersion := 0 }
    nodes := [], writeLogs := [], rootsMetadata := []
    updatedNodes := [], multipartLog := [] }

def wlStart : Root := { ns := 0, version := 1, ty := .stateRoot, h := 5 }

def wlEnd : Root := { ns := 0, version := 0, ty := .stateRoot, h := 6 }

/-- Counterexample to C3 as stated: for this pair of roots (same namespace
as the database, but the end root does not follow the start root) there is
no write-log path at all — in particular none within 2 hops — yet
`GetWriteLog` fails with root-must-follow-old, not write-log-not-found. -/
theorem C3_counterexample :
    wlPathWithin2 wlDB wlEnd.version (typedHashFromRoot wlStart)
        (typedHashFromRoot wlEnd) = false ∧
      GetWriteLog wlDB wlStart wlEnd = .error .rootMustFollowOld ∧
      GetWriteLog wlDB wlStart wlEnd ≠ .error .writeLogNotFound := by
  refine ⟨by decide, by decide, by decide⟩

/-- C3 as amended: for every pair of roots with the database's namespace
where the end root follows the start root, `GetWriteLog` fails with
write-log-not-found whenever no path of at most two hops through the
persisted write-log records at the end root's version leads from the end
root back to the start root. -/
theorem C3_writelog_hop_cap (d : NDB) (startRoot endRoot : Root)
    (hns : startRoot.ns = d.ns)
    (hf : Root.follows endRoot startRoot = true)
    (hnp : wlPathWithin2 d endRoot.version (typedHashFromRoot startRoot)
      (typedHashFromRoot endRoot) = false) :
    GetWriteLog d startRoot endRoot = .error .writeLogNotFound := by
  unfold GetWriteLog
  have h1 : sanityCheckNamespace d startRoot.ns = true := by
    simp [sanityCheckNamespace, hns]
  rw [hf, h1, hnp]
  by_cases hd : d.discardWriteLogs
  · simp [hd]
  · simp only [hd, if_false, Bool.not_true, Bool.false_eq_true]
    by_cases hv : endRoot.version < d.meta.earliestVersion
    · simp [hv]
    · simp [hv]

/-- A database holding a three-hop write-log chain at version 2:
hash 4 ← hash 3 ← hash 2 ← hash 1. -/
def wl3DB : NDB :=
  { ns := 0, readOnly := false, discardWriteLogs := false, multipartVersion := 0
    meta := { earliestVersion := 0, lastFinalized := some 2, multipartVersion := 0 }
    nodes := []
    writeLogs :=
      [ { version := 2, newRoot := ⟨.stateRoot, 4⟩, oldRoot := ⟨.stateRoot, 3⟩ },
        { version := 2, newRoot := ⟨.stateRoot, 3⟩, oldRoot := ⟨.stateRoot, 2⟩ },
        { version := 2, newRoot := ⟨.stateRoot, 2⟩, oldRoot := ⟨.stateRoot, 1⟩ } ]
    rootsMetadata := [], updatedNodes := [], multipartLog := [] }

def wl3Start : Root := { ns := 0, version := 2, ty := .stateRoot, h := 1 }

def wl3End : Root := { ns := 0, version := 2, ty := .stateRoot, h := 4 }

/-- Witness for the amended C3: the only path from hash 4 back to hash 1
crosses three write-log records (three or more intermediate roots), so the
reconstruction returns write-log-not-found. -/
theorem C3_writelog_hop_cap_witness :
    GetWriteLog wl3DB wl3Start wl3End = .error .writeLogNotFound :=
  C3_writelog_hop_cap wl3DB wl3Start wl3End rfl (by decide) (by decide)

/-! ## Claim C1: finalize error gate -/

/-- `cleanMultipart` never touches the last-finalized field. -/
theorem cleanMultipart_lastFinalized (d : NDB) (b : Bool) :
    (cleanMultipart d b).meta.lastFinalized = d.meta.lastFinalized := by
  unfold cleanMultipart
  split <;> rfl

/-- `cleanMultipart` never touches the read-only flag. -/
theorem cleanMultipart_readOnly (d : NDB) (b : Bool) :
    (cleanMultipart d b).readOnly = d.readOnly := by
  unfold cleanMultipart
  split <;> rfl

/-- After `cleanMultipart` on a database whose in-memory multipart version
was nonzero, the in-memory multipart version is cleared. -/
theorem cleanMultipart_multipartVersion (d : NDB) (b : Bool)
    (h : d.multipartVersion ≠ 0) : (cleanMultipart d b).multipartVersion = 0 := by
  unfold cleanMultipart cleanMultipartVersionOf
  rw [if_pos h, if_neg h]

/-- A successful finalize records its version as last finalized. -/
theorem finalizeApply_lastFinalized (d : NDB) (roots : List Root) (v : Nat) :
    (finalizeApply d roots v).meta.lastFinalized = some v := by
  unfold finalizeApply
  split
  · rw [cleanMultipart_lastFinalized]
    rfl
  · rfl

/-- A successful finalize leaves the read-only flag alone. -/
theorem finalizeApply_readOnly (d : NDB) (roots : List Root) (v : Nat) :
    (finalizeApply d roots v).readOnly = d.readOnly := by
  unfold finalizeApply
  split
  · rw [cleanMultipart_readOnly]
  · rfl

/-- After a successful finalize no multipart restore is in progress: either
none was, or the closing `cleanMultipartLocked` cleared it. -/
theorem finalizeApply_multipartVersion (d : NDB) (roots : List Root) (v : Nat) :
    (finalizeApply d roots v).multipartVersion = 0 := by
  unfold finalizeApply
  split
  · rename_i hmp
    exact cleanMultipart_multipartVersion _ false hmp
  · rename_i hmp
    simpa using hmp

/-- A database in the middle of a multipart restore at version 5 whose last
finalized version is 0: the state checkpoint sync leaves behind before
finalizing the restored version. -/
def c1DB : NDB :=
  { ns := 0, readOnly := false, discardWriteLogs := false, multipartVersion := 5
    meta := { earliestVersion := 0, lastFinalized := some 0, multipartVersion := 5 }
    nodes := [], writeLogs := []
    rootsMetadata := [(5, [(⟨.stateRoot, 10⟩, [])])]
    updatedNodes := [((5, ⟨.stateRoot, 10⟩), [])]
    multipartLog := [] }

def c1Root : Root := { ns := 0, version := 5, ty := .stateRoot, h := 10 }

/-- Counterexample to C1 as stated: a multipart restore is in progress for
version 5 itself (not a different version), version 4 is not finalized and
version 0 has been finalized before, so by the claim finalize(5, _) must
fail with not-finalized — but the code skips the monotonic-finalization
check while a multipart restore is in progress and the call succeeds. -/
theorem C1_counterexample :
    c1DB.multipartVersion = 5 ∧
      c1DB.meta.lastFinalized = some 0 ∧
      (0 : Nat) < 5 - 1 ∧
      (FinalizeRun c1DB [c1Root]).2 ≠ some .notFinalized ∧
      (FinalizeRun c1DB [c1Root]).2 = none := by
  refine ⟨rfl, rfl, by decide, by decide, by decide⟩

/-- C1 as amended: for every finalize call with a non-empty list of roots
all carrying version V on a writable database: a multipart restore in
progress for a version other than V fails with invalid-multipart-version;
otherwise, when **no** multipart restore is in progress, V > 0, some version
has been finalized and V−1 is not finalized, it fails with not-finalized;
otherwise a V at or below the last finalized version fails with
already-finalized; when none of these hold (and every root registered at V
has its updated-nodes index, as every commit guarantees) finalization
proceeds and updates last-finalized-version to V. -/
theorem C1_finalize_gate (d : NDB) (r0 : Root) (rest : List Root)
    (hro : d.readOnly = false)
    (hv : (r0 :: rest).all (fun r => r.version == r0.version) = true) :
    ((d.multipartVersion ≠ 0 ∧ d.multipartVersion ≠ r0.version) →
        Finalize d (r0 :: rest) = .error .invalidMultipartVersion) ∧
      (d.multipartVersion = 0 → 0 < r0.version →
        ∀ lf, d.meta.lastFinalized = some lf → lf < r0.version - 1 →
          Finalize d (r0 :: rest) = .error .notFinalized) ∧
      (¬(d.multipartVersion ≠ 0 ∧ d.multipartVersion ≠ r0.version) →
        ∀ lf, d.meta.lastFinalized = some lf → r0.version ≤ lf →
          Finalize d (r0 :: rest) = .error .alreadyFinalized) ∧
      (¬(d.multipartVersion ≠ 0 ∧ d.multipartVersion ≠ r0.version) →
        ¬(d.multipartVersion = 0 ∧ 0 < r0.version ∧
            d.meta.lastFinalized.isSome = true ∧
            d.meta.lastFinalized.getD 0 < r0.version - 1) →
        ¬(d.meta.lastFinalized.isSome = true ∧
            r0.version ≤ d.meta.lastFinalized.getD 0) →
        (loadRootsMetadata d r0.version).all
            (fun e => (lookupA d.updatedNodes (r0.version, e.1)).isSome) = true →
        ∃ d2, Finalize d (r0 :: rest) = .ok d2 ∧
          d2.meta.lastFinalized = some r0.version) := by
  have hany : ((r0 :: rest).any (fun r => r.version ≠ r0.version)) = false := by
    simp only [List.all_eq_true, beq_iff_eq] at hv
    simp only [List.any_eq_false, decide_eq_true_eq]
    intro r hr
    simpa using hv r hr
  refine ⟨?_, ?_, ?_, ?_⟩
  · intro hc
    unfold Finalize
    rw [hro]
    simp only [List.isEmpty_cons, Bool.false_eq_true, if_false, List.headI_cons]
    rw [if_pos hc]
  · intro hmp hv0 lf hlf hprev
    unfold Finalize
    rw [hro]
    simp only [List.isEmpty_cons, Bool.false_eq_true, if_false, List.headI_cons]
    rw [if_neg (by simp [hmp]), if_pos (by simp [hmp, hv0, hlf]; omega)]
  · intro hc lf hlf hle
    unfold Finalize
    rw [hro]
    simp only [List.isEmpty_cons, Bool.false_eq_true, if_false, List.headI_cons]
    have hnf : ¬(d.multipartVersion = 0 ∧ 0 < r0.version ∧
        d.meta.lastFinalized.isSome = true ∧
        d.meta.lastFinalized.getD 0 < r0.version - 1) := by
      rintro ⟨-, h0, -, hlt⟩
      rw [hlf] at hlt
      simp at hlt
      omega
    rw [if_neg hc, if_neg hnf, if_pos (by simp [hlf]; omega)]
  · intro hc hnf haf hwf
    have hnone : ((loadRootsMetadata d r0.version).any
        (fun e => (lookupA d.updatedNodes (r0.version, e.1)).isNone)) = false := by
      simp only [List.all_eq_true] at hwf
      simp only [List.any_eq_false]
      intro e he
      have h2 := hwf e he
      cases hl : lookupA d.updatedNodes (r0.version, e.1) with
      | none => rw [hl] at h2; cases h2
      | some v => simp [hl]
    unfold Finalize
    rw [hro]
    simp only [List.isEmpty_cons, Bool.false_eq_true, if_false, List.headI_cons]
    rw [if_neg hc, if_neg hnf, if_neg haf, hany]
    simp only [Bool.false_eq_true, if_false]
    rw [hnone]
    simp only [Bool.false_eq_true, if_false]
    exact ⟨_, rfl, finalizeApply_lastFinalized d (r0 :: rest) r0.version⟩

/-- Witness for the amended C1 at a fresh database finalizing version 1
after version 0: all three failure guards are off, so finalization proceeds
and records version 1 as last finalized. -/
def c1wDB : NDB :=
  { ns := 0, readOnly := false, discardWriteLogs := false, multipartVersion := 0
    meta := { earliestVersion := 0, lastFinalized := some 0, multipartVersion := 0 }
    nodes := [], writeLogs := []
    rootsMetadata := [(1, [(⟨.stateRoot, 11⟩, [])])]
    updatedNodes := [((1, ⟨.stateRoot, 11⟩), [])]
    multipartLog := [] }

def c1wRoot : Root := { ns := 0, version := 1, ty := .stateRoot, h := 11 }

theorem C1_finalize_gate_witness :
    ∃ d2, Finalize c1wDB [c1wRoot] = .ok d2 ∧ d2.meta.lastFinalized = some 1 :=
  (C1_finalize_gate c1wDB c1wRoot [] rfl (by decide)).2.2.2
    (by decide) (by decide) (by decide) (by decide)

/-! ## Claims C6 and C9: finalize idempotence and argument validation -/

/-- Inversion of a successful `Finalize`: the database was writable, the
roots list was non-empty with all roots at the head's version, and the
result is writable, has no multipart restore in progress, and records the
head's version as last finalized. -/
theorem finalize_ok_inv {d d2 : NDB} {roots : List Root}
    (h : Finalize d roots = .ok d2) :
    d.readOnly = false ∧
      ∃ r0 rest, roots = r0 :: rest ∧
        d2.readOnly = false ∧ d2.multipartVersion = 0 ∧
        ((r0 :: rest).any (fun r => r.version ≠ r0.version)) = false ∧
        d2.meta.lastFinalized = some r0.version := by
  unfold Finalize at h
  cases hrr : d.readOnly with
  | true =>
    rw [hrr] at h
    simp only [if_true] at h
    cases h
  | false =>
    rw [hrr] at h
    simp only [Bool.false_eq_true, if_false] at h
    refine ⟨rfl, ?_⟩
    cases roots with
    | nil => cases h
    | cons r0 rest =>
      refine ⟨r0, rest, rfl, ?_⟩
      simp only [List.isEmpty_cons, Bool.false_eq_true, if_false,
        List.headI_cons] at h
      split_ifs at h with h1 h2 h3 h4 h5
      have hd2 : finalizeApply d (r0 :: rest) r0.version = d2 := by
        injection h
      subst hd2
      refine ⟨?_, ?_, ?_, ?_⟩
      · rw [finalizeApply_readOnly]
        exact hrr
      · exact finalizeApply_multipartVersion d (r0 :: rest) r0.version
      · cases hA : (r0 :: rest).any (fun r => r.version ≠ r0.version)
        · rfl
        · exact absurd hA h4
      · exact finalizeApply_lastFinalized d (r0 :: rest) r0.version

/-- C6: if finalize(V, S) succeeded, finalizing the same (version, roots)
again is a no-op on the second call: it returns already-finalized and the
database state is unchanged. -/
theorem C6_finalize_twice_noop (d d2 : NDB) (roots : List Root)
    (h : FinalizeRun d roots = (d2, none)) :
    FinalizeRun d2 roots = (d2, some .alreadyFinalized) := by
  have hF : Finalize d roots = .ok d2 := by
    unfold FinalizeRun at h
    cases hE : Finalize d roots with
    | ok x =>
      rw [hE] at h
      cases h
      rfl
    | error e =>
      rw [hE] at h
      cases h
  obtain ⟨-, r0, rest, hroots, hro2, hmp2, -, hlf2⟩ := finalize_ok_inv hF
  subst hroots
  have hsecond : Finalize d2 (r0 :: rest) = .error .alreadyFinalized := by
    unfold Finalize
    rw [hro2]
    simp only [List.isEmpty_cons, Bool.false_eq_true, if_false, List.headI_cons]
    rw [if_neg (by rw [hmp2]; simp)]
    rw [if_neg (by rw [hlf2]; rintro ⟨-, h0, -, hlt⟩; simp at hlt; omega)]
    rw [if_pos (by rw [hlf2]; exact ⟨rfl, le_refl _⟩)]
  unfold FinalizeRun
  rw [hsecond]

/-- Witness for C6: finalizing version 1 of `c1wDB` succeeds, and repeating
the call returns already-finalized with the state unchanged. -/
theorem C6_finalize_twice_noop_witness :
    FinalizeRun (FinalizeRun c1wDB [c1wRoot]).1 [c1wRoot] =
      ((FinalizeRun c1wDB [c1wRoot]).1, some .alreadyFinalized) :=
  C6_finalize_twice_noop c1wDB (FinalizeRun c1wDB [c1wRoot]).1 [c1wRoot] rfl

/-- C9: finalize rejects an empty roots list, and rejects a roots list in
which not all roots carry the head's version, returning an error in both
cases and performing no modification of the database state. -/
theorem C9_finalize_rejects_bad_roots (d : NDB) (roots : List Root)
    (h : roots = [] ∨ ∃ r0 rest, roots = r0 :: rest ∧
        (roots.any (fun r => r.version ≠ r0.version)) = true) :
    (FinalizeRun d roots).1 = d ∧ (FinalizeRun d roots).2.isSome = true := by
  unfold FinalizeRun
  cases hE : Finalize d roots with
  | error e => exact ⟨rfl, rfl⟩
  | ok d2 =>
    exfalso
    obtain ⟨-, r0, rest, hroots, -, -, hany, -⟩ := finalize_ok_inv hE
    rcases h with hnil | ⟨r0x, restx, hrx, hanyx⟩
    · rw [hnil] at hroots
      cases hroots
    · rw [hrx] at hroots
      injection hroots with h1 h2
      subst h1
      subst h2
      rw [hrx] at hanyx
      rw [hanyx] at hany
      cases hany

/-- Witness for C9: finalizing an empty roots list fails and leaves the
database unchanged. -/
theorem C9_finalize_rejects_bad_roots_witness :
    (FinalizeRun wlDB []).1 = wlDB ∧ (FinalizeRun wlDB []).2.isSome = true :=
  C9_finalize_rejects_bad_roots wlDB [] (Or.inl rfl)

/-! ## Claims C7 and C2: pruning -/

/-- Inversion of a successful `Prune`: the database was writable with no
restore in progress, the version was finalized and earliest, and the result
is exactly the lone-root sweep plus metadata updates. -/
theorem prune_ok_inv {d d2 : NDB} {V : Nat} (h : Prune d V = .ok d2) :
    d.readOnly = false ∧ d.multipartVersion = 0 ∧
      (∃ lf, d.meta.lastFinalized = some lf ∧ V ≤ lf) ∧
      V = d.meta.earliestVersion ∧
      d2.nodes = d.nodes.filter
        (fun e => !(pruneDeadNodes d V (loneRoots (loadRootsMetadata d V))).contains e.1) ∧
      d2.rootsMetadata = eraseA d.rootsMetadata V ∧
      d2.writeLogs = (if d.discardWriteLogs then d.writeLogs
                      else d.writeLogs.filter (fun k => k.version ≠ V)) ∧
      d2.meta = { d.meta with earliestVersion := V + 1 } := by
  unfold Prune at h
  cases hrr : d.readOnly with
  | true =>
    rw [hrr] at h
    simp only [if_true] at h
    cases h
  | false =>
    rw [hrr] at h
    simp only [Bool.false_eq_true, if_false] at h
    have hfin : ∀ (hlf : ¬((!d.meta.lastFinalized.isSome) = true ∨
        d.meta.lastFinalized.getD 0 < V)), ∃ lf, d.meta.lastFinalized = some lf ∧ V ≤ lf := by
      intro hlf
      push_neg at hlf
      obtain ⟨hs, hge⟩ := hlf
      cases hL : d.meta.lastFinalized with
      | none => rw [hL] at hs; simp at hs
      | some lf =>
        rw [hL] at hge
        exact ⟨lf, rfl, by simpa using hge⟩
    split_ifs at h with h1 h2 h3 h4
    · injection h with heq
      subst heq
      exact ⟨rfl, by simpa using h1, hfin h2, by simpa using h3, rfl, rfl,
        by rw [if_pos h4], rfl⟩
    · injection h with heq
      subst heq
      exact ⟨rfl, by simpa using h1, hfin h2, by simpa using h3, rfl, rfl,
        by rw [if_neg h4], rfl⟩

/-- A database whose earliest and last finalized versions coincide at 3:
by the claim, prune(3) must be refused, yet the code accepts it. -/
def c7DB : NDB :=
  { ns := 0, readOnly := false, discardWriteLogs := false, multipartVersion := 0
    meta := { earliestVersion := 3, lastFinalized := some 3, multipartVersion := 0 }
    nodes := [], writeLogs := [], rootsMetadata := []
    updatedNodes := [], multipartLog := [] }

/-- Counterexample to C7 as stated: pruning version 3 — the last finalized
version — succeeds when it is also the earliest version, and afterwards
earliest-version = 4 exceeds last-finalized-version = 3. -/
theorem C7_counterexample :
    c7DB.meta.lastFinalized = some 3 ∧
      (PruneRun c7DB 3).2 = none ∧
      (PruneRun c7DB 3).1.meta.earliestVersion = 4 := by
  refine ⟨rfl, by decide, by decide⟩

/-- C7 as amended: prune(V) with V equal to the last finalized version is
refused (leaving the database unchanged) whenever V differs from
earliest-version; when V is also the earliest version the prune is
accepted, after which earliest-version = V+1 exceeds the last finalized
version. -/
theorem C7_prune_last_finalized (d : NDB) (V : Nat)
    (hlf : d.meta.lastFinalized = some V) :
    (d.meta.earliestVersion ≠ V →
        (PruneRun d V).1 = d ∧ (PruneRun d V).2.isSome = true) ∧
      (∀ d2, Prune d V = .ok d2 →
        d.meta.earliestVersion = V ∧ d2.meta.earliestVersion = V + 1 ∧
          d2.meta.lastFinalized = some V) := by
  constructor
  · intro hne
    unfold PruneRun
    cases hE : Prune d V with
    | error e => exact ⟨rfl, rfl⟩
    | ok d2 =>
      obtain ⟨-, -, -, hVe, -⟩ := prune_ok_inv hE
      exact absurd hVe.symm hne
  · intro d2 hE
    obtain ⟨-, -, -, hVe, -, -, -, hmeta⟩ := prune_ok_inv hE
    refine ⟨hVe.symm, ?_, ?_⟩
    · rw [hmeta]
    · rw [hmeta]
      exact hlf

/-- A database where version 3 is finalized but the earliest version is 2. -/
def c7wDB : NDB :=
  { ns := 0, readOnly := false, discardWriteLogs := false, multipartVersion := 0
    meta := { earliestVersion := 2, lastFinalized := some 3, multipartVersion := 0 }
    nodes := [], writeLogs := [], rootsMetadata := []
    updatedNodes := [], multipartLog := [] }

/-- Witness for the amended C7: pruning the last finalized version 3 while
the earliest version is 2 is refused and leaves the database unchanged. -/
theorem C7_prune_last_finalized_witness :
    (PruneRun c7wDB 3).1 = c7wDB ∧ (PruneRun c7wDB 3).2.isSome = true :=
  (C7_prune_last_finalized c7wDB 3 rfl).1 (by decide)

/-- Membership in a fold that appends per-element lists. -/
theorem mem_foldl_append {α β : Type} (f : α → List β) (l : List α) (init : List β)
    (x : β) :
    x ∈ l.foldl (fun acc a => acc ++ f a) init ↔ x ∈ init ∨ ∃ a ∈ l, x ∈ f a := by
  induction l generalizing init with
  | nil => simp
  | cons a l ih =>
    simp only [List.foldl_cons, ih, List.mem_append, List.mem_cons]
    constructor
    · rintro ((hx | hx) | ⟨b, hb, hx⟩)
      · exact Or.inl hx
      · exact Or.inr ⟨a, Or.inl rfl, hx⟩
      · exact Or.inr ⟨b, Or.inr hb, hx⟩
    · rintro (hx | ⟨b, hb, hx⟩)
      · exact Or.inl (Or.inl hx)
      · rcases hb with rfl | hb
        · exact Or.inl (Or.inr hx)
        · exact Or.inr ⟨b, hb, hx⟩

/-- In an association list with no duplicate keys, lookup of a member's key
returns exactly that member's value. -/
theorem lookupA_eq_of_mem_nodup {K V : Type} [DecidableEq K] {l : List (K × V)}
    (hnd : (l.map Prod.fst).Nodup) {e : K × V} (he : e ∈ l) :
    lookupA l e.1 = some e.2 := by
  induction l with
  | nil => cases he
  | cons a rest ih =>
    rw [List.map_cons, List.nodup_cons] at hnd
    rcases List.mem_cons.mp he with rfl | he2
    · simp [lookupA]
    · have hk : a.1 ≠ e.1 := by
        intro hkk
        exact hnd.1 (hkk ▸ List.mem_map_of_mem Prod.fst he2)
      rw [lookupA, if_neg hk]
      exact ih hnd.2 he2

/-- The predicate `Prune`'s visit callback uses to stage a node deletion. -/
theorem pruneDead_pred_iff (d : NDB) (V : Nat) (th : TypedHash) :
    ((match lookupA d.nodes th with
      | some nd => nd.createdVersion == V
      | none => false) = true) ↔
      ∃ nd, lookupA d.nodes th = some nd ∧ nd.createdVersion = V := by
  cases hl : lookupA d.nodes th <;> simp [hl]

/-- Characterization of the node keys `Prune` stages for deletion: those
visited from some lone root whose persisted node was created at the pruned
version. -/
theorem mem_pruneDeadNodes (d : NDB) (V : Nat) (lone : List TypedHash)
    (th : TypedHash) :
    th ∈ pruneDeadNodes d V lone ↔
      ∃ rh ∈ lone, th ∈ visitedFrom d rh ∧
        ∃ nd, lookupA d.nodes th = some nd ∧ nd.createdVersion = V := by
  unfold pruneDeadNodes
  rw [mem_foldl_append
    (fun rh => (visitedFrom d rh).filter
      (fun th2 =>
        match lookupA d.nodes th2 with
        | some nd => nd.createdVersion == V
        | none => false))]
  simp only [List.not_mem_nil, false_or, List.mem_filter, pruneDead_pred_iff]

/-- A version-0 store with two roots: root 100 has a derived root (200 at
version 1) and shares node 10 with the lone root 101.  Node 10 is created at
version 0 and also reachable from the retained version-1 root 200. -/
def c2DB : NDB :=
  { ns := 0, readOnly := false, discardWriteLogs := false, multipartVersion := 0
    meta := { earliestVersion := 0, lastFinalized := some 1, multipartVersion := 0 }
    nodes :=
      [ (⟨.stateRoot, 100⟩, { createdVersion := 0, children := [10] }),
        (⟨.stateRoot, 101⟩, { createdVersion := 0, children := [10] }),
        (⟨.stateRoot, 10⟩, { createdVersion := 0, children := [] }),
        (⟨.stateRoot, 200⟩, { createdVersion := 1, children := [10] }) ]
    writeLogs := []
    rootsMetadata :=
      [ (0, [ (⟨.stateRoot, 100⟩, [⟨.stateRoot, 200⟩]),
              (⟨.stateRoot, 101⟩, []) ]),
        (1, [ (⟨.stateRoot, 200⟩, []) ]) ]
    updatedNodes := [], multipartLog := [] }

/-- Counterexample to C2 as stated: pruning version 0 of `c2DB` deletes node
10 even though node 10 is *not* reachable only from lone roots — it is
reachable from the non-lone root 100 (whose derived root 200 at version 1 is
retained and also reaches node 10). -/
theorem C2_counterexample :
    (⟨.stateRoot, 100⟩ : TypedHash) ∉ loneRoots (loadRootsMetadata c2DB 0) ∧
      (⟨.stateRoot, 10⟩ : TypedHash) ∈ visitedFrom c2DB ⟨.stateRoot, 100⟩ ∧
      (PruneRun c2DB 0).2 = none ∧
      lookupA (PruneRun c2DB 0).1.nodes ⟨.stateRoot, 10⟩ = none := by
  refine ⟨by decide, by decide, by decide, by decide⟩

/-- C2 as amended: on a writable database with no multipart restore in
progress (and a well-formed node store), prune(V) fails with not-finalized
when V is greater than the last finalized version or nothing has been
finalized; fails with not-earliest when V is not the earliest version; and
on success deletes the root metadata at V, all write-logs at V, exactly
those nodes created at V that are reachable from **some** lone root of V
(even when they are also reachable from other roots), and sets
earliest-version to V+1. -/
theorem C2_prune_contract (d : NDB) (V : Nat)
    (hro : d.readOnly = false) (hmp : d.multipartVersion = 0)
    (hnd : (d.nodes.map Prod.fst).Nodup) :
    ((d.meta.lastFinalized = none ∨ d.meta.lastFinalized.getD 0 < V) →
        Prune d V = .error .notFinalized) ∧
      ((∃ lf, d.meta.lastFinalized = some lf ∧ V ≤ lf) →
        V ≠ d.meta.earliestVersion → Prune d V = .error .notEarliest) ∧
      ((∃ lf, d.meta.lastFinalized = some lf ∧ V ≤ lf) →
        V = d.meta.earliestVersion →
        ∃ d2, Prune d V = .ok d2 ∧
          d2.rootsMetadata = eraseA d.rootsMetadata V ∧
          (d.discardWriteLogs = false →
            d2.writeLogs = d.writeLogs.filter (fun k => k.version ≠ V)) ∧
          d2.meta.earliestVersion = V + 1 ∧
          (∀ e ∈ d.nodes, (e ∈ d2.nodes ↔
            ¬(e.2.createdVersion = V ∧
              ∃ rh ∈ loneRoots (loadRootsMetadata d V), e.1 ∈ visitedFrom d rh)))) := by
  refine ⟨?_, ?_, ?_⟩
  · intro hnf
    unfold Prune
    rw [hro]
    simp only [Bool.false_eq_true, if_false]
    rw [if_neg (by simp [hmp]), if_pos ?_]
    rcases hnf with hnf | hnf
    · exact Or.inl (by rw [hnf]; rfl)
    · exact Or.inr hnf
  · rintro ⟨lf, hlf, hle⟩ hne
    unfold Prune
    rw [hro]
    simp only [Bool.false_eq_true, if_false]
    rw [if_neg (by simp [hmp]), if_neg ?_, if_pos hne]
    rw [hlf]
    intro hcon
    simp at hcon
    omega
  · rintro ⟨lf, hlf, hle⟩ hVe
    unfold Prune
    rw [hro]
    simp only [Bool.false_eq_true, if_false]
    rw [if_neg (by simp [hmp]), if_neg (by rw [hlf]; simp; omega), if_neg (by simp [hVe])]
    refine ⟨_, rfl, rfl, ?_, rfl, ?_⟩
    · intro hdwl
      rw [hdwl]
      simp
    · intro e he
      rw [List.mem_filter]
      constructor
      · rintro ⟨-, hnc⟩
        rintro ⟨hcv, rh, hrh, hvis⟩
        have : e.1 ∈ pruneDeadNodes d V (loneRoots (loadRootsMetadata d V)) :=
          (mem_pruneDeadNodes d V _ e.1).mpr
            ⟨rh, hrh, hvis, e.2, lookupA_eq_of_mem_nodup hnd he, hcv⟩
        simp at hnc
        exact hnc this
      · intro hnot
        refine ⟨he, ?_⟩
        simp only [Bool.not_eq_true']
        by_contra hc
        simp only [Bool.not_eq_false] at hc
        have hmem : e.1 ∈ pruneDeadNodes d V (loneRoots (loadRootsMetadata d V)) := by
          simpa using hc
        obtain ⟨rh, hrh, hvis, nd, hnd2, hcv⟩ := (mem_pruneDeadNodes d V _ e.1).mp hmem
        have hlk := lookupA_eq_of_mem_nodup hnd he
        rw [hlk] at hnd2
        injection hnd2 with hnd3
        exact hnot ⟨hnd3 ▸ hcv, rh, hrh, hvis⟩

/-- Witness for the amended C2: pruning version 0 of `c2DB` succeeds with
the described effect on metadata, write logs and nodes. -/
theorem C2_prune_contract_witness :
    ∃ d2, Prune c2DB 0 = .ok d2 ∧
      d2.rootsMetadata = eraseA c2DB.rootsMetadata 0 ∧
      (c2DB.discardWriteLogs = false →
        d2.writeLogs = c2DB.writeLogs.filter (fun k => k.version ≠ 0)) ∧
      d2.meta.earliestVersion = 0 + 1 ∧
      (∀ e ∈ c2DB.nodes, (e ∈ d2.nodes ↔
        ¬(e.2.createdVersion = 0 ∧
          ∃ rh ∈ loneRoots (loadRootsMetadata c2DB 0), e.1 ∈ visitedFrom c2DB rh))) :=
  (C2_prune_contract c2DB 0 rfl rfl (by decide)).2.2 ⟨1, rfl, by decide⟩ rfl

/-! ## Claim C8: read-only mode -/

/-- A read-only database with no multipart restore recorded. -/
def roDB : NDB :=
  { ns := 0, readOnly := true, discardWriteLogs := false, multipartVersion := 0
    meta := { earliestVersion := 0, lastFinalized := none, multipartVersion := 0 }
    nodes := [], writeLogs := [], rootsMetadata := []
    updatedNodes := [], multipartLog := [] }

/-- Counterexample to C8 as stated: on a read-only database,
abort-multipart-insert does not fail with the read-only error — it performs
no read-only check at all and succeeds when no restore is in progress; and
start-multipart-insert performs no read-only check either (in the Go code it
proceeds to the metadata commit, which a read-only backing store rejects
with a backend error, never `ErrReadOnly`). -/
theorem C8_counterexample :
    roDB.readOnly = true ∧
      AbortMultipartInsert roDB = .ok roDB ∧
      AbortMultipartInsert roDB ≠ .error .readOnly ∧
      StartMultipartInsert roDB 5 ≠ .error .readOnly := by
  refine ⟨rfl, by decide, by decide, by decide⟩

/-- C8 as amended: when the node database is opened read-only, finalize,
prune and new-batch fail immediately with the read-only error and leave the
store unchanged; start-multipart-insert and abort-multipart-insert perform
no read-only check (abort with no restore in progress returns success with
the store untouched). -/
theorem C8_read_only_mode (d : NDB) (hro : d.readOnly = true) :
    (∀ roots, Finalize d roots = .error .readOnly) ∧
      (∀ V, Prune d V = .error .readOnly) ∧
      (∀ oldRoot V chunk, NewBatch d oldRoot V chunk = .error .readOnly) ∧
      (d.multipartVersion = 0 → d.meta.multipartVersion = 0 →
        AbortMultipartInsert d = .ok d) := by
  refine ⟨?_, ?_, ?_, ?_⟩
  · intro roots
    unfold Finalize
    rw [hro]
    rfl
  · intro V
    unfold Prune
    rw [hro]
    rfl
  · intro oldRoot V chunk
    unfold NewBatch
    rw [hro]
    rfl
  · intro h1 h2
    unfold AbortMultipartInsert cleanMultipart cleanMultipartVersionOf
    rw [h1, h2]
    rfl

/-- Witness for the amended C8 at the concrete read-only database. -/
theorem C8_read_only_mode_witness :
    Finalize roDB [c1wRoot] = .error .readOnly ∧
      Prune roDB 0 = .error .readOnly ∧
      NewBatch roDB c1wRoot 1 false = .error .readOnly ∧
      AbortMultipartInsert roDB = .ok roDB :=
  ⟨(C8_read_only_mode roDB rfl).1 [c1wRoot],
   (C8_read_only_mode roDB rfl).2.1 0,
   (C8_read_only_mode roDB rfl).2.2.1 c1wRoot 1 false,
   (C8_read_only_mode roDB rfl).2.2.2 rfl rfl⟩

/-! ## Claim C10: committing an already-registered root -/

/-- C10: committing a non-chunk batch whose new root is already registered
in its version's root metadata succeeds while leaving the database
unchanged — the staged node inserts, updated-nodes list and write log of
the batch are discarded rather than written. -/
theorem C10_commit_duplicate_root (d : NDB) (ba : Batch) (root : Root)
    (hmp : ¬(d.multipartVersion ≠ 0 ∧ d.multipartVersion ≠ root.version))
    (hns : root.ns = d.ns)
    (hf : Root.follows root ba.oldRoot = true)
    (hnf : ¬(d.meta.lastFinalized.isSome = true ∧
        root.version ≤ d.meta.lastFinalized.getD 0))
    (hdup : (lookupA (loadRootsMetadata d root.version)
        (typedHashFromRoot root)).isSome = true)
    (hchunk : ba.chunk = false) :
    Commit d ba root = .ok d := by
  unfold Commit
  rw [if_neg hmp]
  have h1 : sanityCheckNamespace d root.ns = true := by
    simp [sanityCheckNamespace, hns]
  rw [h1, hf]
  simp only [Bool.not_true, Bool.false_eq_true, if_false]
  rw [if_neg hnf, if_pos ⟨hdup, by rw [hchunk]; rfl⟩]

/-- A database whose version-1 metadata already registers state root 11. -/
def c10DB : NDB :=
  { ns := 0, readOnly := false, discardWriteLogs := false, multipartVersion := 0
    meta := { earliestVersion := 0, lastFinalized := none, multipartVersion := 0 }
    nodes := [], writeLogs := []
    rootsMetadata := [(1, [(⟨.stateRoot, 11⟩, [])])]
    updatedNodes := [((1, ⟨.stateRoot, 11⟩), [])]
    multipartLog := [] }

/-- A non-chunk batch with staged node writes, an updated-nodes list and an
attached write log, all of which a duplicate commit must discard. -/
def c10Batch : Batch :=
  { oldRoot := { ns := 0, version := 0, ty := .stateRoot, h := emptyHash }
    chunk := false
    stagedNodes := [(⟨.stateRoot, 42⟩, { createdVersion := 1, children := [] })]
    updatedNodes := [{ removed := false, h := ⟨.stateRoot, 42⟩ }]
    hasWriteLog := true
    multipartStaged := [] }

def c10Root : Root := { ns := 0, version := 1, ty := .stateRoot, h := 11 }

/-- Witness for C10: the duplicate commit succeeds and returns the database
exactly as it was. -/
theorem C10_commit_duplicate_root_witness :
    Commit c10DB c10Batch c10Root = .ok c10DB :=
  C10_commit_duplicate_root c10DB c10Batch c10Root (by decide) rfl (by decide)
    (by decide) (by decide) rfl

/-! ## Claim C5: sync-cursor monotonicity -/

namespace Worker

theorem W_pos : 0 < W := by
  unfold W
  exact Nat.pos_pow_of_pos 64 (by omega)

/-- Trace validity: every "round fully applied" event concerns a round
other than the sentinel `defaultUndefinedRound` (the Go code reserves
`^uint64(0)` as "no block synced"; a consensus block at that round cannot
occur). -/
def validFrom (s : WState) : List WEvent → Bool
  | [] => true
  | e :: es =>
      (match e with
       | .applied => decide ((s.lastApplied + 1) % W ≠ defaultUndefinedRound)
       | .finalizeDone => true) && validFrom (step s e) es

/-- The inductive invariant of the worker loop: the persisted cursor
history is nondecreasing and ends at `cachedLastRound`; the applied-summary
heap is sorted, duplicate-free, below the sentinel and bounded by
`lastFullyAppliedRound`; at most one finalization is in flight and it is
for round `cachedLastRound + 1`; and the sentinel value of
`lastFullyAppliedRound` occurs only in the pristine pre-sync state. -/
structure Inv (s : WState) : Prop where
  persSorted : s.persisted.Pairwise (· ≤ ·)
  persLe : ∀ y ∈ s.persisted, y ≤ s.cached
  cachedLt : s.persisted ≠ [] → s.cached < W - 1
  appSorted : s.applieds.Pairwise (· ≤ ·)
  appNodup : s.applieds.Nodup
  appLt : ∀ x ∈ s.applieds, x < W - 1
  appLe : ∀ x ∈ s.applieds, x ≤ s.lastApplied
  laW : s.lastApplied < W
  laSent : s.lastApplied = W - 1 →
    s.applieds = [] ∧ s.inFlight = [] ∧ s.persisted = []
  inflight : s.inFlight = [] ∨
    ∃ v, s.inFlight = [v] ∧ v = (s.cached + 1) % W ∧ v < W - 1 ∧
      v ∉ s.applieds ∧ v ≤ s.lastApplied

theorem mem_insertSorted {r x : Nat} :
    ∀ {l : List Nat}, x ∈ insertSorted r l ↔ x = r ∨ x ∈ l := by
  intro l
  induction l with
  | nil => simp [insertSorted]
  | cons a l ih =>
    unfold insertSorted
    split
    · simp only [List.mem_cons]
    · simp only [List.mem_cons, ih]
      tauto

theorem insertSorted_pairwise {r : Nat} :
    ∀ {l : List Nat}, l.Pairwise (· ≤ ·) → (insertSorted r l).Pairwise (· ≤ ·) := by
  intro l
  induction l with
  | nil =>
    intro _
    simp [insertSorted]
  | cons a l ih =>
    intro h
    rw [List.pairwise_cons] at h
    unfold insertSorted
    split
    · rename_i hle
      rw [List.pairwise_cons]
      refine ⟨?_, List.pairwise_cons.mpr h⟩
      intro y hy
      rcases List.mem_cons.mp hy with rfl | hy
      · exact hle
      · exact le_trans hle (h.1 y hy)
    · rename_i hgt
      rw [List.pairwise_cons]
      refine ⟨?_, ih h.2⟩
      intro y hy
      rcases mem_insertSorted.mp hy with rfl | hy
      · omega
      · exact h.1 y hy

theorem insertSorted_nodup {r : Nat} :
    ∀ {l : List Nat}, l.Nodup → r ∉ l → (insertSorted r l).Nodup := by
  intro l
  induction l with
  | nil =>
    intro _ _
    simp [insertSorted]
  | cons a l ih =>
    intro hnd hr
    rw [List.nodup_cons] at hnd
    unfold insertSorted
    split
    · rw [List.nodup_cons]
      refine ⟨?_, List.nodup_cons.mpr hnd⟩
      intro hmem
      exact hr hmem
    · rw [List.nodup_cons]
      constructor
      · intro hmem
        rcases mem_insertSorted.mp hmem with rfl | hmem
        · exact hr (List.mem_cons_self a l)
        · exact hnd.1 hmem
      · exact ih hnd.2 (fun hm => hr (List.mem_cons_of_mem a hm))

/-- Dispatching a finalization preserves the invariant: the gate
`head = cachedLastRound + 1` together with the no-duplicates property of the
heap implies no second finalization can be dispatched while one is in
flight. -/
theorem dispatch_inv {s : WState} (hI : Inv s) : Inv (dispatch s) := by
  unfold dispatch
  split
  · exact hI
  rename_i h rest heq
  split
  · rename_i hguard
    have hmemh : h ∈ s.applieds := by
      rw [heq]
      exact List.mem_cons_self h rest
    have hIF : s.inFlight = [] := by
      rcases hI.inflight with hif | ⟨v, hv, hveq, -, hvnot, -⟩
      · exact hif
      · exfalso
        apply hvnot
        have hvh : v = h := by rw [hveq, hguard]
        rw [hvh]
        exact hmemh
    refine ⟨hI.persSorted, hI.persLe, hI.cachedLt, ?_, ?_, ?_, ?_, hI.laW, ?_, ?_⟩
    · exact (List.pairwise_cons.mp (heq ▸ hI.appSorted)).2
    · exact (List.nodup_cons.mp (heq ▸ hI.appNodup)).2
    · intro x hx
      exact hI.appLt x (by rw [heq]; exact List.mem_cons_of_mem h hx)
    · intro x hx
      exact hI.appLe x (by rw [heq]; exact List.mem_cons_of_mem h hx)
    · intro hla
      have := (hI.laSent hla).1
      rw [heq] at this
      cases this
    · refine Or.inr ⟨h, ?_, hguard, hI.appLt h hmemh, ?_, hI.appLe h hmemh⟩
      · rw [hIF]
        rfl
      · exact (List.nodup_cons.mp (heq ▸ hI.appNodup)).1
  · exact hI

theorem drain_inv : ∀ (fuel : Nat) {s : WState}, Inv s → Inv (drain fuel s) := by
  intro fuel
  induction fuel with
  | zero =>
    intro s hI
    exact hI
  | succ n ih =>
    intro s hI
    unfold drain
    split
    · exact hI
    · exact ih (dispatch_inv hI)

theorem drainAll_inv {s : WState} (hI : Inv s) : Inv (drainAll s) :=
  drain_inv _ hI

/-- The "next round fully applied" event preserves the invariant, provided
the pushed round is not the sentinel. -/
theorem step_applied_inv {s : WState} (hI : Inv s)
    (hv : (s.lastApplied + 1) % W ≠ defaultUndefinedRound) :
    Inv (stepApplied s) := by
  have hW : 0 < W := W_pos
  have hrW : (s.lastApplied + 1) % W < W := Nat.mod_lt _ hW
  have hrS : (s.lastApplied + 1) % W ≠ W - 1 := hv
  have hrlt : (s.lastApplied + 1) % W < W - 1 := by omega
  unfold stepApplied
  apply drainAll_inv
  by_cases hla : s.lastApplied = W - 1
  · obtain ⟨hA, hF, hP⟩ := hI.laSent hla
    refine ⟨?_, ?_, ?_, ?_, ?_, ?_, ?_, hrW, ?_, ?_⟩
    · exact hI.persSorted
    · exact hI.persLe
    · intro hne
      exact absurd hP hne
    · show (insertSorted ((s.lastApplied + 1) % W) s.applieds).Pairwise (· ≤ ·)
      rw [hA]
      exact List.pairwise_singleton _ _
    · show (insertSorted ((s.lastApplied + 1) % W) s.applieds).Nodup
      rw [hA]
      exact List.nodup_singleton _
    · intro x hx
      have hx2 : x ∈ insertSorted ((s.lastApplied + 1) % W) s.applieds := hx
      rw [hA] at hx2
      rcases mem_insertSorted.mp hx2 with rfl | hx2
      · exact hrlt
      · cases hx2
    · intro x hx
      have hx2 : x ∈ insertSorted ((s.lastApplied + 1) % W) s.applieds := hx
      rw [hA] at hx2
      show x ≤ (s.lastApplied + 1) % W
      rcases mem_insertSorted.mp hx2 with rfl | hx2
      · exact le_refl _
      · cases hx2
    · intro hsent
      exact absurd hsent hrS
    · refine Or.inl ?_
      show s.inFlight = []
      exact hF
  · have hlalt : s.lastApplied < W - 1 := by
      have := hI.laW
      omega
    have hmod : (s.lastApplied + 1) % W = s.lastApplied + 1 :=
      Nat.mod_eq_of_lt (by omega)
    refine ⟨?_, ?_, ?_, ?_, ?_, ?_, ?_, hrW, ?_, ?_⟩
    · exact hI.persSorted
    · exact hI.persLe
    · exact hI.cachedLt
    · exact insertSorted_pairwise hI.appSorted
    · refine insertSorted_nodup hI.appNodup ?_
      intro hmem
      have h2 := hI.appLe _ hmem
      omega
    · intro x hx
      rcases mem_insertSorted.mp hx with rfl | hx2
      · exact hrlt
      · exact hI.appLt x hx2
    · intro x hx
      show x ≤ (s.lastApplied + 1) % W
      rcases mem_insertSorted.mp hx with rfl | hx2
      · exact le_refl _
      · have h2 := hI.appLe x hx2
        omega
    · intro hsent
      exact absurd hsent hrS
    · rcases hI.inflight with hif | ⟨v, hv2, hveq, hvlt, hvnot, hvle⟩
      · exact Or.inl hif
      · refine Or.inr ⟨v, hv2, hveq, hvlt, ?_, ?_⟩
        · intro hmem
          rcases mem_insertSorted.mp hmem with heq2 | hmem2
          · omega
          · exact hvnot hmem2
        · show v ≤ (s.lastApplied + 1) % W
          omega

/-- A completed finalization flushes its round to the persisted cursor;
the flushed round extends the nondecreasing history. -/
theorem step_finalize_inv {s : WState} (hI : Inv s) :
    Inv (stepFinalize s) := by
  have hW : 0 < W := W_pos
  unfold stepFinalize
  split
  · exact hI
  rename_i v rest heq
  rcases hI.inflight with hif | ⟨v2, hv2, hveq, hvlt, -, -⟩
  · rw [hif] at heq
    cases heq
  have hvv : v = v2 ∧ rest = [] := by
    rw [hv2] at heq
    injection heq with h1 h2
    exact ⟨h1.symm, h2.symm⟩
  obtain ⟨rfl, rfl⟩ := hvv
  apply drainAll_inv
  have hcle : ∀ y ∈ s.persisted, y ≤ s.cached := hI.persLe
  by_cases hp : s.persisted = []
  · refine ⟨?_, ?_, ?_, hI.appSorted, hI.appNodup, hI.appLt, hI.appLe, hI.laW, ?_,
      Or.inl rfl⟩
    · show (s.persisted ++ [v]).Pairwise (· ≤ ·)
      rw [hp]
      exact List.pairwise_singleton _ _
    · intro y hy
      have hy2 : y ∈ s.persisted ++ [v] := hy
      rw [hp] at hy2
      show y ≤ v
      rcases List.mem_singleton.mp hy2 with rfl
      exact le_refl _
    · intro _
      exact hvlt
    · intro hla
      have h2 := (hI.laSent hla).2.1
      rw [hv2] at h2
      cases h2
  · have hclt : s.cached < W - 1 := hI.cachedLt hp
    have hmod : (s.cached + 1) % W = s.cached + 1 := Nat.mod_eq_of_lt (by omega)
    have hcv : s.cached < v := by
      rw [hveq, hmod]
      omega
    refine ⟨?_, ?_, ?_, hI.appSorted, hI.appNodup, hI.appLt, hI.appLe, hI.laW, ?_,
      Or.inl rfl⟩
    · show (s.persisted ++ [v]).Pairwise (· ≤ ·)
      rw [List.pairwise_append]
      refine ⟨hI.persSorted, List.pairwise_singleton _ _, ?_⟩
      intro a ha b hb
      rcases List.mem_singleton.mp hb with rfl
      have h2 := hcle a ha
      omega
    · intro y hy
      have hy2 : y ∈ s.persisted ++ [v] := hy
      show y ≤ v
      rcases List.mem_append.mp hy2 with hy3 | hy3
      · have h2 := hcle y hy3
        omega
      · rcases List.mem_singleton.mp hy3 with rfl
        exact le_refl _
    · intro _
      exact hvlt
    · intro hla
      have h2 := (hI.laSent hla).2.1
      rw [hv2] at h2
      cases h2

theorem run_inv : ∀ (events : List WEvent) {s : WState}, Inv s →
    validFrom s events = true → Inv (events.foldl step s) := by
  intro events
  induction events with
  | nil =>
    intro s hI _
    exact hI
  | cons e es ih =>
    intro s hI hvd
    unfold validFrom at hvd
    rw [Bool.and_eq_true] at hvd
    obtain ⟨hv1, hv2⟩ := hvd
    rw [List.foldl_cons]
    refine ih ?_ hv2
    cases e with
    | applied =>
      simp only [decide_eq_true_eq] at hv1
      exact step_applied_inv hI hv1
    | finalizeDone => exact step_finalize_inv hI

theorem init_inv (stored : Option Nat) (genesisRound : Nat) (ckpt : Option Nat)
    (hs : ∀ r, stored = some r → r < W)
    (hc : ∀ c, ckpt = some c → c < W - 1) :
    Inv (initState stored genesisRound ckpt) := by
  have hW : 0 < W := W_pos
  have hc0 : initCached stored genesisRound < W := by
    cases stored with
    | none =>
      unfold initCached undefinedRound
      exact Nat.mod_lt _ hW
    | some r =>
      show (if r = defaultUndefinedRound ∨ r < genesisRound then
        undefinedRound genesisRound else r) < W
      unfold undefinedRound
      by_cases hr : r = defaultUndefinedRound ∨ r < genesisRound
      · rw [if_pos hr]
        exact Nat.mod_lt _ hW
      · rw [if_neg hr]
        exact hs r rfl
  cases ckpt with
  | none =>
    refine ⟨List.Pairwise.nil, ?_, ?_, List.Pairwise.nil, List.nodup_nil, ?_, ?_,
      hc0, ?_, Or.inl rfl⟩
    · intro y hy
      cases hy
    · intro hne
      exact absurd rfl hne
    · intro x hx
      cases hx
    · intro x hx
      cases hx
    · intro _
      exact ⟨rfl, rfl, rfl⟩
  | some c =>
    have hclt : c < W - 1 := hc c rfl
    refine ⟨List.pairwise_singleton _ _, ?_, ?_, List.Pairwise.nil, List.nodup_nil,
      ?_, ?_, by show c < W; omega, ?_, Or.inl rfl⟩
    · intro y hy
      show y ≤ c
      rcases List.mem_singleton.mp hy with rfl
      exact le_refl _
    · intro _
      exact hclt
    · intro x hx
      cases hx
    · intro x hx
      cases hx
    · intro hla
      have hla2 : c = W - 1 := hla
      omega

/-- C5: across every pair of observations of the persisted sync cursor
taken in program order, the earlier round is at most the later round — the
persisted cursor never goes backwards.  The environment assumptions are
that uint64 round values fit in 64 bits and that no block carries the
sentinel round `^uint64(0)`. -/
theorem C5_sync_cursor_monotone (stored : Option Nat) (genesisRound : Nat)
    (ckpt : Option Nat) (events : List WEvent)
    (hs : ∀ r, stored = some r → r < W)
    (hc : ∀ c, ckpt = some c → c < W - 1)
    (hvd : validFrom (drainAll (initState stored genesisRound ckpt)) events = true) :
    (run stored genesisRound ckpt events).persisted.Pairwise (· ≤ ·) :=
  (run_inv events (drainAll_inv (init_inv stored genesisRound ckpt hs hc)) hvd).persSorted

/-- Witness for C5: a fresh worker at genesis round 0 that applies and
finalizes rounds 0 and 1 persists the nondecreasing cursor history
`[0, 1]`. -/
theorem C5_sync_cursor_monotone_witness :
    (run none 0 none
      [.applied, .finalizeDone, .applied, .finalizeDone]).persisted.Pairwise
        (· ≤ ·) :=
  C5_sync_cursor_monotone none 0 none
    [.applied, .finalizeDone, .applied, .finalizeDone]
    (fun r h => nomatch h) (fun c h => nomatch h) (by decide)

end Worker

end Oasis
